import Mathlib

/-!
Verification of the RAG engine core (`rag_engine.go`) against its
natural-language specification.

Strings are modelled as `List Char` (the Go code only ever indexes and
slices at byte boundaries of ASCII data; for the inputs considered here
bytes and characters coincide).  Go `float32` similarity values and the
quality-score arithmetic are modelled exactly over `ℚ`; the `%.1f`
rendering of the percentage is modelled as decimal rounding of the exact
rational.  The two external collaborators (`OpenAIClient`,
`MilvusClient`) are modelled as injected functions, and each engine entry
point additionally returns the list of collaborator calls it performed so
that frame properties ("the store is never invoked") are expressible.
-/

/-- The whitespace predicate of Go's `strings.TrimSpace`
(`unicode.IsSpace`), restricted to the Latin-1 range. -/
def goIsSpace (c : Char) : Bool :=
  c == ' ' || c == '\t' || c == '\n' || c == '\x0b' || c == '\x0c' ||
    c == '\r' || c == '\u0085' || c == '\u00a0'

/-- Left half of Go's `strings.TrimSpace`. -/
def trimLeft (l : List Char) : List Char :=
  l.dropWhile goIsSpace

/-- Right half of Go's `strings.TrimSpace`. -/
def trimRight (l : List Char) : List Char :=
  (l.reverse.dropWhile goIsSpace).reverse

/-- Go's `strings.TrimSpace`. -/
def trimSpace (l : List Char) : List Char :=
  trimRight (trimLeft l)

/-- Go's `strings.LastIndex(s, string(c))` for a one-character needle:
the index of the last occurrence of `c`, `none` playing the role of
Go's `-1`. -/
def lastIndexOfC (c : Char) : List Char → Option Nat
  | [] => none
  | x :: xs =>
    match lastIndexOfC c xs with
    | some n => some (n + 1)
    | none => if x == c then some 0 else none

/-- The `lastBreak := lastPeriod; if lastNewline > lastBreak { ... }`
combination from `ChunkText`, with `none` standing for Go's `-1`. -/
def maxOpt : Option Nat → Option Nat → Option Nat
  | none, b => b
  | some a, none => some a
  | some a, some b => some (max a b)

/-- `end := start + chunkSize; if end > len(text) { end = len(text) }`. -/
def chunkEnd (text : List Char) (chunkSize start : Nat) : Nat :=
  min (start + chunkSize) text.length

/-- The break position searched inside the current window
`text[start:chunkEnd]`: the larger of the last `'.'` and the last
`'\n'` index, both relative to the window. -/
def lastBreak (text : List Char) (chunkSize start : Nat) : Option Nat :=
  maxOpt (lastIndexOfC '.' ((text.drop start).take (chunkEnd text chunkSize start - start)))
    (lastIndexOfC '\n' ((text.drop start).take (chunkEnd text chunkSize start - start)))

/-- The end of the current chunk after the sentence-boundary adjustment of
`ChunkText`: when the window stops short of the text's end and
`lastBreak > start + chunkSize/2` (the comparison exactly as written in
the Go source), the chunk is cut after the break character. -/
def breakAdjust (text : List Char) (chunkSize start : Nat) : Nat :=
  if chunkEnd text chunkSize start < text.length then
    match lastBreak text chunkSize start with
    | some b =>
      if start + chunkSize / 2 < b then start + b + 1
      else chunkEnd text chunkSize start
    | none => chunkEnd text chunkSize start
  else chunkEnd text chunkSize start

/-- The chunk emitted for the current window: the (possibly
boundary-adjusted) slice `text[start:end]` with surrounding whitespace
trimmed. -/
def chunkPiece (text : List Char) (chunkSize start : Nat) : List Char :=
  trimSpace ((text.drop start).take (breakAdjust text chunkSize start - start))

/-- `if chunk != "" { chunks = append(chunks, chunk) }`. -/
def emit (t : List Char) (rest : List (List Char)) : List (List Char) :=
  if t = [] then rest else t :: rest

/-- The loop of `ChunkText`, indexed by fuel.  Each Go loop iteration
consumes one unit of fuel; `none` means the fuel ran out.  The loop state
is exactly the variable `start` (the accumulated chunk list never
influences control flow), and `start = end - overlap` uses truncated
subtraction, matching Go's `if start < 0 { start = 0 }` clamp. -/
def chunkLoop (text : List Char) (chunkSize overlap : Nat) :
    Nat → Nat → Option (List (List Char))
  | 0, _ => none
  | fuel + 1, start =>
    if start < text.length then
      if breakAdjust text chunkSize start = text.length then
        some (emit (chunkPiece text chunkSize start) [])
      else
        match chunkLoop text chunkSize overlap fuel (breakAdjust text chunkSize start - overlap) with
        | none => none
        | some rest => some (emit (chunkPiece text chunkSize start) rest)
    else some []

/-- `ChunkText` from `rag_engine.go`.  The loop state is the single
natural `start` ranging over `[0, len(text))`, and the loop is
deterministic, so a terminating Go run can never repeat a `start` value
and performs at most `len(text)` iterations; `len(text) + 1` units of
fuel therefore suffice for every terminating run, and `none` is returned
exactly when the Go loop diverges. -/
def ChunkText (text : List Char) (chunkSize overlap : Nat) :
    Option (List (List Char)) :=
  chunkLoop text chunkSize overlap (text.length + 1) 0

/-- Termination of the Go `ChunkText` loop on a given input. -/
def ChunkTextTerminatesOn (text : List Char) (chunkSize overlap : Nat) : Prop :=
  ∃ fuel, (chunkLoop text chunkSize overlap fuel 0).isSome = true

/-- `Message` from `rag_engine.go`. -/
structure Message where
  role : List Char
  content : List Char
deriving DecidableEq

/-- `Document` from `rag_engine.go`; the `float32` similarity is
modelled exactly over `ℚ`. -/
structure Document where
  text : List Char
  source : List Char
  similarity : ℚ
deriving DecidableEq

/-- One call to an external collaborator (store insertion or chat
completion), recorded so that frame claims can be stated. -/
inductive ExtCall where
  | insertCall (texts sources : List (List Char))
  | chatCall (model : List Char) (messages : List Message)
deriving DecidableEq

/-- `AddDocuments` from `rag_engine.go`: the injected `milvus`
collaborator is a function, and the returned list records the collaborator
calls performed. -/
def AddDocuments (milvus : List (List Char) → List (List Char) → Bool)
    (texts sources : List (List Char)) : Bool × List ExtCall :=
  if texts.length ≠ sources.length then (false, [])
  else (milvus texts sources, [ExtCall.insertCall texts sources])

/-- Go's `fmt.Sprintf("%.1f", q)` for the (exact-rational model of the)
similarity percentage: decimal rounding of the exact rational to one
fractional digit. -/
def fmtPct (q : ℚ) : List Char :=
  (toString (round (q * 10) / 10) ++ "." ++ toString ((round (q * 10)).natAbs % 10)).toList

/-- The part of a context block before the document text:
`"Source %d (%.1f%% relevant): %s\n" ++ "Content: "`. -/
def docHeader (i : Nat) (d : Document) : List Char :=
  "Source ".toList ++ (toString (i + 1)).toList ++ " (".toList ++
    fmtPct (d.similarity * 100) ++ "% relevant): ".toList ++ d.source ++
    "\nContent: ".toList

/-- One full context block written by `GenerateResponse` for document
`i` (0-based): header, document text, then `"\n\n"`. -/
def docBlock (i : Nat) (d : Document) : List Char :=
  docHeader i d ++ d.text ++ ('\n' :: '\n' :: [])

/-- The concatenation of all context blocks, numbering from `i`. -/
def contextBlocks : Nat → List Document → List Char
  | _, [] => []
  | i, d :: ds => docBlock i d ++ contextBlocks (i + 1) ds

/-- `context := strings.TrimSpace(contextBuilder.String())`. -/
def buildContext (docs : List Document) : List Char :=
  trimSpace (contextBlocks 0 docs)

/-- The fixed instruction text that precedes the context in the user
prompt, ending with `"Context:\n"`. -/
def promptHeader : List Char :=
  ("You are a helpful assistant that answers questions based on the provided context.\n" ++
    "Use the context below to answer the user's question. If the answer cannot be found in the context,\n" ++
    "say \"I don't have enough information to answer that question based on the provided context.\"\n\n" ++
    "Context:\n").toList

/-- The fallback-instruction sentence quoted inside the prompt. -/
def fallbackSentence : List Char :=
  "I don't have enough information to answer that question based on the provided context.".toList

/-- The user prompt assembled by `GenerateResponse`. -/
def buildPrompt (query : List Char) (docs : List Document) : List Char :=
  promptHeader ++ buildContext docs ++ "\n\nQuestion: ".toList ++ query ++
    "\n\nAnswer:".toList

/-- The fixed system message of `GenerateResponse`. -/
def systemMessage : Message :=
  ⟨"system".toList,
    "You are a helpful assistant that answers questions based on provided context.".toList⟩

/-- The user message of `GenerateResponse`. -/
def userMessage (query : List Char) (docs : List Document) : Message :=
  ⟨"user".toList, buildPrompt query docs⟩

/-- The `messages` slice passed to `r.openai.ChatCompletion`. -/
def buildMessages (query : List Char) (docs : List Document) : List Message :=
  [systemMessage, userMessage query docs]

/-- `GenerateResponse` from `rag_engine.go`.  The injected chat
collaborator is a function returning `Except`; the Go pair
`(string, error)` is modelled as `List Char × Option ε` (`("", err)` on
failure, `(resp, nil)` on success), and the second component records the
collaborator calls performed.  The similarity-statistics logging block of
the Go source computes `calculateQualityScore` and friends purely for
`log.Printf` output and never influences the returned value, so it is not
reflected in the result. -/
def GenerateResponse {ε : Type}
    (openai : List Char → List Message → Except ε (List Char))
    (query : List Char) (ctx : List Document) (model : List Char) :
    (List Char × Option ε) × List ExtCall :=
  match openai model (buildMessages query ctx) with
  | Except.error e => (([], some e), [ExtCall.chatCall model (buildMessages query ctx)])
  | Except.ok r => ((r, none), [ExtCall.chatCall model (buildMessages query ctx)])

/-- `weights` from `calculateQualityScore`. -/
def qsWeights : List ℚ := [0.5, 0.3, 0.2]

/-- The positional weight chosen by `calculateQualityScore` for the
document at 0-based index `i`. -/
def qsWeight (i : Nat) : ℚ :=
  if i < qsWeights.length then qsWeights.getD i 0 else 0.1

/-- The `totalScore` accumulation of `calculateQualityScore`, starting
the position counter at `i`. -/
def totalScoreFrom : Nat → List Document → ℚ
  | _, [] => 0
  | i, d :: ds => d.similarity * qsWeight i * 10 + totalScoreFrom (i + 1) ds

/-- The `maxPossibleScore` variable of `calculateQualityScore`: the Go
constant expression `float32(0.5+0.3+0.2)*10.0` is evaluated exactly (Go
constant arithmetic is arbitrary precision), giving the default `10`,
overridden to `5` for one document and `8` for two. -/
def maxPossibleScore (n : Nat) : ℚ :=
  if n = 1 then 5 else if n = 2 then 8 else 10

/-- `calculateQualityScore` from `rag_engine.go`, with `float32`
arithmetic modelled exactly over `ℚ`. -/
def calculateQualityScore (docs : List Document) : ℚ :=
  if docs.length = 0 then 0
  else if totalScoreFrom 0 docs / maxPossibleScore docs.length * 10 > 10 then 10
  else totalScoreFrom 0 docs / maxPossibleScore docs.length * 10

/-- Modelled from the claim's words (for comparison with the code): the
positional weight named by the spec, `0.5, 0.3, 0.2` for the first three
documents and a flat `0.1` beyond. -/
def claimWeight (i : Nat) : ℚ :=
  if i = 0 then 0.5 else if i = 1 then 0.3 else if i = 2 then 0.2 else 0.1

/-- Modelled from the claim's words: the normalizing denominator
determined by the document count. -/
def claimDenom (n : Nat) : ℚ :=
  if n = 1 then 5 else if n = 2 then 8 else 10

/-- Modelled from the claim's words: the sum over documents of
`similarity * weight * 10`, positions counted from `i`. -/
def claimSum : Nat → List Document → ℚ
  | _, [] => 0
  | i, d :: ds => d.similarity * claimWeight i * 10 + claimSum (i + 1) ds

/-- Modelled from the claim's words, literally: the weighted sum divided
by the denominator, clamped to a maximum of `10`; zero documents give
`0`. -/
def qualityScoreClaim (docs : List Document) : ℚ :=
  if docs.length = 0 then 0
  else min (claimSum 0 docs / claimDenom docs.length) 10

/-- The claim's formula amended with the `* 10` rescale the code applies
after normalizing. -/
def qualityScoreAmended (docs : List Document) : ℚ :=
  if docs.length = 0 then 0
  else min (claimSum 0 docs / claimDenom docs.length * 10) 10

/-- `true` when a string is empty or its last character is not
whitespace (so `TrimSpace` of a larger string cannot eat into it from
the right). -/
def lastCharNotSpace (l : List Char) : Bool :=
  match l.getLast? with
  | none => true
  | some c => !goIsSpace c

/-! ### General helper lemmas -/

/-- A segment of the left part of an append is a segment of the whole. -/
theorem seg_left {α : Type} {l A : List α} (B : List α) (h : l <:+: A) :
    l <:+: A ++ B := by
  rcases h with ⟨s, t, hst⟩
  exact ⟨s, t ++ B, by rw [← hst]; simp [List.append_assoc]⟩

/-- A segment of the right part of an append is a segment of the whole. -/
theorem seg_right {α : Type} {l B : List α} (A : List α) (h : l <:+: B) :
    l <:+: A ++ B := by
  rcases h with ⟨s, t, hst⟩
  exact ⟨A ++ s, t, by rw [← hst]; simp [List.append_assoc]⟩

/-- The clamp `if q > 10 then 10 else q` of the Go source, as a `min`. -/
theorem ite_gt_eq_min (q : ℚ) : (if q > 10 then 10 else q) = min q 10 := by
  rcases le_or_lt q 10 with h | h
  · rw [if_neg (not_lt.2 h), min_eq_left h]
  · rw [if_pos h, min_eq_right h.le]

/-! ### Claims about the chunker (concrete evaluations) -/

/-- Claim C5: `ChunkText` on the 15-character string of `A`s with chunk
size 10 and overlap 2 returns exactly the chunks of 10 and 7 `A`s, in
that order. -/
theorem chunkText_overlap_example :
    ChunkText (List.replicate 15 'A') 10 2 =
      some [List.replicate 10 'A', List.replicate 7 'A'] := by
  decide

/-- Claim C1 (evaluation at the failing input): with text
`"aaaaaaaaaaaaaaa.aaaaaaaa"` (period at index 15), chunk size 10 and
overlap 2, the second window is `text[8:18] = "aaaaaaa.aa"`; it stops
short of the text's end and its last period sits at chunk-relative
offset 7, strictly past the midpoint `10 / 2 = 5`, so the claim requires
the chunk `"aaaaaaa."` — but the produced chunk is the raw 10-character
slice.  The Go comparison `lastBreak > start+chunkSize/2` measures
`lastBreak` relative to the window but `start+chunkSize/2` absolutely,
so the midpoint rule only ever fires on windows with
`start < chunkSize/2`. -/
theorem chunkText_midpoint_second_window :
    ChunkText ("aaaaaaaaaaaaaaa.aaaaaaaa".toList) 10 2 =
      some ["aaaaaaaaaa".toList, "aaaaaaa.aa".toList, "aaaaaaaa".toList] ∧
    lastIndexOfC '.' ("aaaaaaa.aa".toList) = some 7 ∧
    10 / 2 < 7 ∧ ("aaaaaaa.aa".toList).length = 10 := by
  decide

/-! ### Claims about AddDocuments -/

/-- Claim C3: with mismatched lengths `AddDocuments` returns `false` and
performs no collaborator call; with equal lengths it performs exactly one
`InsertDocuments` call and returns its boolean result verbatim. -/
theorem addDocuments_contract
    (milvus : List (List Char) → List (List Char) → Bool)
    (texts sources : List (List Char)) :
    (texts.length ≠ sources.length →
      AddDocuments milvus texts sources = (false, [])) ∧
    (texts.length = sources.length →
      AddDocuments milvus texts sources =
        (milvus texts sources, [ExtCall.insertCall texts sources])) := by
  constructor
  · intro h; simp [AddDocuments, h]
  · intro h; simp [AddDocuments, h]

/-- Witness for claim C3 at concrete inputs of lengths 1 ≠ 0 and
1 = 1. -/
theorem addDocuments_contract_witness :
    AddDocuments (fun _ _ => true) [['a']] [] = (false, []) ∧
    AddDocuments (fun _ _ => true) [['a']] [['s']] =
      (true, [ExtCall.insertCall [['a']] [['s']]]) :=
  ⟨(addDocuments_contract (fun _ _ => true) [['a']] []).1 (by decide),
   (addDocuments_contract (fun _ _ => true) [['a']] [['s']]).2 (by decide)⟩

/-! ### Claims about the quality score formula -/

/-- Claim C7 (counterexample): on a single document with similarity 1
the code yields `(1*0.5*10)/5 * 10 = 10`, but the claim's formula — sum
of `similarity*weight*10` divided by the count-dependent denominator,
clamped at 10 — yields `5/5 = 1`: the claim omits the final `* 10`
rescale of `qualityScore := (totalScore / maxPossibleScore) * 10.0`. -/
theorem qualityScore_formula_cx :
    calculateQualityScore [⟨[], [], 1⟩] ≠ qualityScoreClaim [⟨[], [], 1⟩] := by
  norm_num [calculateQualityScore, qualityScoreClaim, totalScoreFrom, claimSum,
    qsWeight, qsWeights, claimWeight, claimDenom, maxPossibleScore]

/-- The positional weight of the code agrees with the positional weight
named by the claim. -/
theorem qsWeight_eq_claimWeight (i : Nat) : qsWeight i = claimWeight i := by
  match i with
  | 0 => rfl
  | 1 => rfl
  | 2 => rfl
  | n + 3 =>
    have h1 : ¬ (n + 3 < qsWeights.length) := by show ¬ (n + 3 < 3); omega
    have h2 : ¬ (n + 3 = 0) := by omega
    have h3 : ¬ (n + 3 = 1) := by omega
    have h4 : ¬ (n + 3 = 2) := by omega
    simp [qsWeight, claimWeight, h1, h2, h3, h4]

/-- The accumulated total of the code agrees with the claim's weighted
sum. -/
theorem totalScoreFrom_eq_claimSum :
    ∀ (i : Nat) (docs : List Document), totalScoreFrom i docs = claimSum i docs := by
  intro i docs
  induction docs generalizing i with
  | nil => rfl
  | cons d ds ih => simp [totalScoreFrom, claimSum, qsWeight_eq_claimWeight, ih]

/-- Claim C7 (amended): `calculateQualityScore` equals the claim's
weighted-sum formula with the `* 10` rescale restored — the weighted sum
divided by the count-dependent denominator, times 10, clamped at 10,
with the empty list mapping to 0. -/
theorem qualityScore_formula (docs : List Document) :
    calculateQualityScore docs = qualityScoreAmended docs := by
  unfold calculateQualityScore qualityScoreAmended
  by_cases h0 : docs.length = 0
  · simp [h0]
  · rw [if_neg h0, if_neg h0, totalScoreFrom_eq_claimSum,
      show maxPossibleScore docs.length = claimDenom docs.length from rfl]
    exact ite_gt_eq_min _

/-! ### Frame claims about collaborator calls -/

/-- `true` when some recorded call is a chat-completion call. -/
def anyChatCall (calls : List ExtCall) : Bool :=
  calls.any fun c =>
    match c with
    | ExtCall.chatCall _ _ => true
    | ExtCall.insertCall _ _ => false

/-- Claim C10: an `AddDocuments` invocation performs at most one
collaborator call and never a chat call, and a `GenerateResponse`
invocation performs exactly one collaborator call, namely the chat
completion with the built messages (and so never a store insertion).
The modelled engine carries no state besides the two injected
collaborators, mirroring the two-field Go struct. -/
theorem single_collaborator_calls
    (milvus : List (List Char) → List (List Char) → Bool)
    (texts sources : List (List Char)) {ε : Type}
    (openai : List Char → List Message → Except ε (List Char))
    (query : List Char) (docs : List Document) (model : List Char) :
    anyChatCall (AddDocuments milvus texts sources).2 = false ∧
    (AddDocuments milvus texts sources).2.length ≤ 1 ∧
    (GenerateResponse openai query docs model).2 =
      [ExtCall.chatCall model (buildMessages query docs)] := by
  refine ⟨?_, ?_, ?_⟩
  · unfold AddDocuments anyChatCall
    split <;> simp
  · unfold AddDocuments
    split <;> simp
  · unfold GenerateResponse
    rcases openai model (buildMessages query docs) with e | r <;> simp

/-! ### Claims about GenerateResponse result passthrough -/

/-- Claim C6: `GenerateResponse` invokes the chat collaborator with
exactly `(model, messages)`; on success it returns the collaborator's
text unchanged with no error, on failure the empty string and the same
error unchanged. -/
theorem generateResponse_passthrough {ε : Type}
    (openai : List Char → List Message → Except ε (List Char))
    (query : List Char) (docs : List Document) (model : List Char) :
    (∀ r, openai model (buildMessages query docs) = Except.ok r →
      GenerateResponse openai query docs model =
        ((r, none), [ExtCall.chatCall model (buildMessages query docs)])) ∧
    (∀ e, openai model (buildMessages query docs) = Except.error e →
      GenerateResponse openai query docs model =
        (([], some e), [ExtCall.chatCall model (buildMessages query docs)])) := by
  constructor
  · intro r hr
    unfold GenerateResponse
    rw [hr]
  · intro e he
    unfold GenerateResponse
    rw [he]

/-- Witness for claim C6: the stub collaborator answering `"stubbed"`
for any input makes `GenerateResponse` return `("stubbed", nil)`, and
the recorded call observes `model = "model-x"`. -/
theorem generateResponse_passthrough_witness :
    GenerateResponse
        (fun _ _ => (Except.ok "stubbed".toList : Except Unit (List Char)))
        ("q".toList) [] ("model-x".toList) =
      (("stubbed".toList, none),
        [ExtCall.chatCall ("model-x".toList) (buildMessages ("q".toList) [])]) :=
  (generateResponse_passthrough
    (fun _ _ => (Except.ok "stubbed".toList : Except Unit (List Char)))
    ("q".toList) [] ("model-x".toList)).1 "stubbed".toList rfl

/-! ### Termination analysis of the chunking loop -/

/-- A last-occurrence index is a valid index of the list. -/
theorem lastIndexOfC_lt_length (c : Char) :
    ∀ (l : List Char) (n : Nat), lastIndexOfC c l = some n → n < l.length := by
  intro l
  induction l with
  | nil => intro n h; cases h
  | cons x xs ih =>
    intro n h
    unfold lastIndexOfC at h
    cases hx : lastIndexOfC c xs with
    | some m =>
      rw [hx] at h
      cases h
      have := ih m hx
      simp [List.length_cons]
      omega
    | none =>
      rw [hx] at h
      by_cases hxc : x == c
      · rw [if_pos hxc] at h
        cases h
        simp [List.length_cons]
      · rw [if_neg hxc] at h
        cases h

/-- The break found inside the current window lies before the raw end
of the window. -/
theorem lastBreak_bound (text : List Char) (cs start b : Nat)
    (h : lastBreak text cs start = some b) :
    start + b + 1 ≤ chunkEnd text cs start := by
  unfold lastBreak at h
  have hlen : ((text.drop start).take (chunkEnd text cs start - start)).length ≤
      chunkEnd text cs start - start := by
    rw [List.length_take]
    exact min_le_left _ _
  have hb : b < ((text.drop start).take (chunkEnd text cs start - start)).length := by
    unfold maxOpt at h
    cases h1 : lastIndexOfC '.' ((text.drop start).take (chunkEnd text cs start - start)) with
    | some m1 =>
      cases h2 : lastIndexOfC '\n' ((text.drop start).take (chunkEnd text cs start - start)) with
      | some m2 =>
        rw [h1, h2] at h
        cases h
        have hm1 := lastIndexOfC_lt_length _ _ _ h1
        have hm2 := lastIndexOfC_lt_length _ _ _ h2
        exact max_lt hm1 hm2
      | none =>
        rw [h1, h2] at h
        cases h
        exact lastIndexOfC_lt_length _ _ _ h1
    | none =>
      cases h2 : lastIndexOfC '\n' ((text.drop start).take (chunkEnd text cs start - start)) with
      | some m2 =>
        rw [h1, h2] at h
        cases h
        exact lastIndexOfC_lt_length _ _ _ h2
      | none =>
        rw [h1, h2] at h
        cases h
  omega

/-- The adjusted end never exceeds the text's length. -/
theorem breakAdjust_le (text : List Char) (cs start : Nat) :
    breakAdjust text cs start ≤ text.length := by
  unfold breakAdjust
  by_cases h : chunkEnd text cs start < text.length
  · rw [if_pos h]
    cases hb : lastBreak text cs start with
    | none => exact le_of_lt h
    | some b =>
      show (if start + cs / 2 < b then start + b + 1 else chunkEnd text cs start) ≤
        text.length
      by_cases hcond : start + cs / 2 < b
      · rw [if_pos hcond]
        exact le_trans (lastBreak_bound text cs start b hb) (le_of_lt h)
      · rw [if_neg hcond]
        exact le_of_lt h
  · rw [if_neg h]
    exact min_le_right _ _

/-- Progress of the chunking loop: whenever the adjusted end stops short
of the text's end and `overlap ≤ chunkSize/2 + 1`, the next start
`end - overlap` strictly exceeds the current start. -/
theorem breakAdjust_progress (text : List Char) (cs ov start : Nat)
    (hov : ov < cs) (hov2 : ov ≤ cs / 2 + 1)
    (hlt : breakAdjust text cs start < text.length) :
    start + ov < breakAdjust text cs start := by
  unfold breakAdjust at hlt ⊢
  by_cases h : chunkEnd text cs start < text.length
  · have hen : chunkEnd text cs start = start + cs := by
      unfold chunkEnd at h ⊢
      rcases Nat.le_total (start + cs) text.length with hle | hle
      · rw [min_eq_left hle]
      · rw [min_eq_right hle] at h
        exact absurd h (lt_irrefl _)
    rw [if_pos h] at hlt ⊢
    cases hb : lastBreak text cs start with
    | none =>
      show start + ov < chunkEnd text cs start
      rw [hen]
      omega
    | some b =>
      show start + ov <
        if start + cs / 2 < b then start + b + 1 else chunkEnd text cs start
      by_cases hcond : start + cs / 2 < b
      · rw [if_pos hcond]
        omega
      · rw [if_neg hcond, hen]
        omega
  · rw [if_neg h] at hlt
    exact absurd hlt h

/-- With `overlap ≤ chunkSize/2 + 1` the loop answers within any fuel
exceeding the remaining text length. -/
theorem chunkLoop_isSome (text : List Char) (cs ov : Nat)
    (hov : ov < cs) (hov2 : ov ≤ cs / 2 + 1) :
    ∀ (fuel start : Nat), text.length - start < fuel →
      (chunkLoop text cs ov fuel start).isSome = true := by
  intro fuel
  induction fuel with
  | zero => intro start h; omega
  | succ k ih =>
    intro start h
    rw [chunkLoop]
    by_cases hs : start < text.length
    · rw [if_pos hs]
      by_cases he : breakAdjust text cs start = text.length
      · rw [if_pos he]
        rfl
      · rw [if_neg he]
        have hlt : breakAdjust text cs start < text.length :=
          lt_of_le_of_ne (breakAdjust_le text cs start) he
        have hpr := breakAdjust_progress text cs ov start hov hov2 hlt
        have hrec := ih (breakAdjust text cs start - ov) (by omega)
        rcases Option.isSome_iff_exists.mp hrec with ⟨rest, hrest⟩
        rw [hrest]
        rfl
    · rw [if_neg hs]
      rfl

set_option linter.unusedVariables false in
/-- Claim C2 (amended): for `0 < chunkSize`, `0 ≤ overlap < chunkSize`
and additionally `overlap ≤ chunkSize/2 + 1`, the `ChunkText` loop
terminates and returns a finite list of chunks (the model is a pure
function of its inputs, and the input text is never modified). -/
theorem chunkText_terminates (text : List Char) (cs ov : Nat)
    (hcs : 0 < cs) (hov : ov < cs) (hov2 : ov ≤ cs / 2 + 1) :
    ∃ chunks, ChunkText text cs ov = some chunks := by
  have h := chunkLoop_isSome text cs ov hov hov2 (text.length + 1) 0 (by omega)
  exact Option.isSome_iff_exists.mp h

/-- Witness for the amended claim C2 at text `"ab"`, chunk size 2,
overlap 1. -/
theorem chunkText_terminates_witness :
    ∃ chunks, ChunkText ("ab".toList) 2 1 = some chunks :=
  chunkText_terminates ("ab".toList) 2 1 (by decide) (by decide) (by decide)

/-- Claim C2 (counterexample): with text `"aaaaaa.aaaaaaaaaaaa"`
(period at index 6, length 19), chunk size 10 and overlap 7 — a valid
input under the claim, `0 < 10` and `0 ≤ 7 < 10` — the first window is
truncated at the period (offset `6 > 10/2`), the adjusted end is 7, and
the next start is `7 - 7 = 0` again: the Go loop never advances and
`ChunkText` diverges, contradicting the claimed unconditional
termination. -/
theorem chunkText_divergence_cx :
    0 < 10 ∧ 7 < 10 ∧
      ¬ ChunkTextTerminatesOn ("aaaaaa.aaaaaaaaaaaa".toList) 10 7 := by
  refine ⟨by decide, by decide, ?_⟩
  have hall : ∀ fuel, chunkLoop ("aaaaaa.aaaaaaaaaaaa".toList) 10 7 fuel 0 = none := by
    intro fuel
    induction fuel with
    | zero => rfl
    | succ k ih =>
      have hstep : chunkLoop ("aaaaaa.aaaaaaaaaaaa".toList) 10 7 (k + 1) 0 =
          match chunkLoop ("aaaaaa.aaaaaaaaaaaa".toList) 10 7 k 0 with
          | none => none
          | some rest =>
            some (emit (chunkPiece ("aaaaaa.aaaaaaaaaaaa".toList) 10 0) rest) := rfl
      rw [hstep, ih]
  rintro ⟨fuel, hf⟩
  rw [hall fuel] at hf
  cases hf

/-! ### Range and monotonicity of the quality score -/

/-- Every positional weight of `calculateQualityScore` is nonnegative. -/
theorem qsWeight_nonneg (i : Nat) : 0 ≤ qsWeight i := by
  rcases i with _ | _ | _ | n
  · norm_num [qsWeight, qsWeights]
  · norm_num [qsWeight, qsWeights]
  · norm_num [qsWeight, qsWeights]
  · rw [qsWeight, if_neg (by show ¬ (n + 3 < 3); omega)]
    norm_num

/-- The normalizing denominator is positive. -/
theorem maxPossibleScore_pos (n : Nat) : 0 < maxPossibleScore n := by
  unfold maxPossibleScore
  split
  · norm_num
  · split <;> norm_num

/-- The accumulated total is nonnegative for similarities `≥ 0`. -/
theorem totalScoreFrom_nonneg :
    ∀ (i : Nat) (docs : List Document), (∀ d ∈ docs, 0 ≤ d.similarity) →
      0 ≤ totalScoreFrom i docs := by
  intro i docs
  induction docs generalizing i with
  | nil => intro _; exact le_refl 0
  | cons d ds ih =>
    intro h
    have h1 : 0 ≤ d.similarity := h d (List.mem_cons_self _ _)
    have h2 := ih (i + 1) (fun x hx => h x (List.mem_cons_of_mem _ hx))
    have h3 : 0 ≤ d.similarity * qsWeight i * 10 := by
      have := mul_nonneg h1 (qsWeight_nonneg i)
      nlinarith
    show 0 ≤ d.similarity * qsWeight i * 10 + totalScoreFrom (i + 1) ds
    linarith

/-- The quality score lies in `[0, 10]` whenever the similarities are
nonnegative (the upper bound needs no hypothesis at all: the code clamps
there). -/
theorem calculateQualityScore_range (docs : List Document)
    (h : ∀ d ∈ docs, 0 ≤ d.similarity) :
    0 ≤ calculateQualityScore docs ∧ calculateQualityScore docs ≤ 10 := by
  unfold calculateQualityScore
  by_cases h0 : docs.length = 0
  · rw [if_pos h0]
    norm_num
  · rw [if_neg h0]
    have hq : 0 ≤ totalScoreFrom 0 docs / maxPossibleScore docs.length * 10 := by
      have h1 := totalScoreFrom_nonneg 0 docs h
      have h2 := maxPossibleScore_pos docs.length
      positivity
    constructor
    · split
      · norm_num
      · exact hq
    · split
      · exact le_refl 10
      · linarith [not_lt.mp (by assumption :
          ¬ totalScoreFrom 0 docs / maxPossibleScore docs.length * 10 > 10)]

/-- Raising the similarity of the document at a fixed position, all
other documents held fixed, never lowers the accumulated total. -/
theorem totalScoreFrom_mono :
    ∀ (i : Nat) (pre post : List Document) (d : Document) (s : ℚ),
      d.similarity ≤ s →
      totalScoreFrom i (pre ++ d :: post) ≤
        totalScoreFrom i (pre ++ ⟨d.text, d.source, s⟩ :: post) := by
  intro i pre
  induction pre generalizing i with
  | nil =>
    intro post d s h
    show d.similarity * qsWeight i * 10 + totalScoreFrom (i + 1) post ≤
      s * qsWeight i * 10 + totalScoreFrom (i + 1) post
    have hw := qsWeight_nonneg i
    have : d.similarity * qsWeight i * 10 ≤ s * qsWeight i * 10 := by nlinarith
    linarith
  | cons p pre ih =>
    intro post d s h
    show p.similarity * qsWeight i * 10 + totalScoreFrom (i + 1) (pre ++ d :: post) ≤
      p.similarity * qsWeight i * 10 +
        totalScoreFrom (i + 1) (pre ++ ⟨d.text, d.source, s⟩ :: post)
    have := ih (i + 1) post d s h
    linarith

/-- Raising one document's similarity never lowers the quality score. -/
theorem calculateQualityScore_mono (pre post : List Document) (d : Document)
    (s : ℚ) (h : d.similarity ≤ s) :
    calculateQualityScore (pre ++ d :: post) ≤
      calculateQualityScore (pre ++ ⟨d.text, d.source, s⟩ :: post) := by
  unfold calculateQualityScore
  have hlen : (pre ++ ⟨d.text, d.source, s⟩ :: post).length =
      (pre ++ d :: post).length := by simp
  have hne : (pre ++ d :: post).length ≠ 0 := by simp
  rw [if_neg hne, hlen, if_neg hne, ite_gt_eq_min, ite_gt_eq_min]
  apply min_le_min _ le_rfl
  have hD := maxPossibleScore_pos (pre ++ d :: post).length
  have hT := totalScoreFrom_mono 0 pre post d s h
  have := (div_le_div_iff_of_pos_right hD).mpr hT
  nlinarith

/-- Claim C8: the quality score of the empty list is 0; for similarity
values in `[0,1]` the score lies in `[0,10]`; and the score is
monotonically non-decreasing in each individual document's similarity
with all other documents held fixed. -/
theorem qualityScore_props :
    calculateQualityScore [] = 0 ∧
    (∀ docs : List Document,
      (∀ d ∈ docs, 0 ≤ d.similarity ∧ d.similarity ≤ 1) →
      0 ≤ calculateQualityScore docs ∧ calculateQualityScore docs ≤ 10) ∧
    (∀ (pre post : List Document) (d : Document) (s : ℚ), d.similarity ≤ s →
      calculateQualityScore (pre ++ d :: post) ≤
        calculateQualityScore (pre ++ ⟨d.text, d.source, s⟩ :: post)) :=
  ⟨rfl,
   fun docs h => calculateQualityScore_range docs (fun d hd => (h d hd).1),
   fun pre post d s h => calculateQualityScore_mono pre post d s h⟩

/-- Witness for claim C8 at concrete inputs: the bounds at a singleton
list with similarity 1/2, and monotonicity from similarity 0 to 1. -/
theorem qualityScore_props_witness :
    (0 ≤ calculateQualityScore [⟨[], [], 1/2⟩] ∧
      calculateQualityScore [⟨[], [], 1/2⟩] ≤ 10) ∧
    calculateQualityScore ([] ++ (⟨[], [], 0⟩ : Document) :: []) ≤
      calculateQualityScore ([] ++ (⟨[], [], (1 : ℚ)⟩ : Document) :: []) :=
  ⟨qualityScore_props.2.1 [⟨[], [], 1/2⟩] (by norm_num),
   qualityScore_props.2.2 [] [] ⟨[], [], 0⟩ 1 (by norm_num)⟩

/-! ### Structure of the assembled prompt -/

/-- `dropWhile` skips a block on which the predicate holds
everywhere. -/
theorem dropWhile_append_all {p : Char → Bool} :
    ∀ (w r : List Char), (∀ c ∈ w, p c = true) →
      (w ++ r).dropWhile p = r.dropWhile p := by
  intro w
  induction w with
  | nil => intro r _; rfl
  | cons a w ih =>
    intro r h
    have ha : p a = true := h a (List.mem_cons_self _ _)
    rw [List.cons_append, List.dropWhile_cons, if_pos ha]
    exact ih r (fun c hc => h c (List.mem_cons_of_mem _ hc))

/-- `dropWhile` stops inside a block that holds a failing element. -/
theorem dropWhile_append_stop {p : Char → Bool} :
    ∀ (w r : List Char), (∃ c ∈ w, p c = false) →
      (w ++ r).dropWhile p = w.dropWhile p ++ r := by
  intro w
  induction w with
  | nil =>
    rintro r ⟨c, hc, _⟩
    cases hc
  | cons a w ih =>
    intro r h
    by_cases ha : p a = true
    · have hw : ∃ c ∈ w, p c = false := by
        rcases h with ⟨c, hc, hpc⟩
        rcases List.mem_cons.mp hc with rfl | hcw
        · rw [ha] at hpc
          cases hpc
        · exact ⟨c, hcw, hpc⟩
      rw [List.cons_append, List.dropWhile_cons, if_pos ha, List.dropWhile_cons,
        if_pos ha]
      exact ih r hw
    · have ha' : p a = false := by
        revert ha
        cases p a <;> simp
      rw [List.cons_append, List.dropWhile_cons, if_neg (by simp [ha']),
        List.dropWhile_cons, if_neg (by simp [ha']), List.cons_append]

/-- Trailing whitespace is invisible to `trimRight`. -/
theorem trimRight_append_ws (A w : List Char)
    (h : ∀ c ∈ w, goIsSpace c = true) :
    trimRight (A ++ w) = trimRight A := by
  unfold trimRight
  rw [List.reverse_append,
    dropWhile_append_all _ _ (fun c hc => h c (List.mem_reverse.mp hc))]

/-- A list ending in a non-space character is untouched by
`trimRight`. -/
theorem trimRight_concat_nonspace (A : List Char) (c : Char)
    (hc : goIsSpace c = false) :
    trimRight (A ++ [c]) = A ++ [c] := by
  unfold trimRight
  rw [List.reverse_append]
  show (((c :: []) ++ A.reverse).dropWhile goIsSpace).reverse = A ++ [c]
  rw [List.cons_append, List.dropWhile_cons, if_neg (by simp [hc])]
  simp

/-- `trimRight` of an append only acts on the right part when that part
holds a non-space character. -/
theorem trimRight_append_keep (A B : List Char)
    (h : ∃ c ∈ B, goIsSpace c = false) :
    trimRight (A ++ B) = A ++ trimRight B := by
  unfold trimRight
  rw [List.reverse_append, dropWhile_append_stop _ _
    (by rcases h with ⟨c, hc, hpc⟩; exact ⟨c, List.mem_reverse.mpr hc, hpc⟩)]
  rw [List.reverse_append, List.reverse_reverse]

/-- `trimLeft` keeps a list starting with a non-space character. -/
theorem trimLeft_cons_nonspace (c : Char) (l : List Char)
    (h : goIsSpace c = false) :
    trimLeft (c :: l) = c :: l := by
  unfold trimLeft
  rw [List.dropWhile_cons, if_neg (by simp [h])]

/-- Every document has its text inside `trimRight` of the concatenated
context blocks, provided the last document's text does not end in
whitespace. -/
theorem ctx_contains :
    ∀ (i : Nat) (docs : List Document),
      (docs.getLast?.all fun d => lastCharNotSpace d.text) = true →
      ∀ d ∈ docs, d.text <:+: trimRight (contextBlocks i docs) := by
  intro i docs
  induction docs generalizing i with
  | nil =>
    intro _ d hd
    cases hd
  | cons d0 ds ih =>
    intro hOK d hd
    cases ds with
    | nil =>
      have hd0 : d = d0 := List.mem_singleton.mp hd
      subst hd0
      have hlast : lastCharNotSpace d.text = true := by simpa using hOK
      rcases List.eq_nil_or_concat d.text with htext | ⟨t, c, htext⟩
      · rw [htext]
        exact ⟨[], trimRight (contextBlocks i [d]), by simp⟩
      · rw [List.concat_eq_append] at htext
        have hc : goIsSpace c = false := by
          rw [htext] at hlast
          unfold lastCharNotSpace at hlast
          rw [List.getLast?_concat] at hlast
          simpa using hlast
        have hctx : contextBlocks i [d] =
            (docHeader i d ++ d.text) ++ ('\n' :: '\n' :: []) := by
          simp [contextBlocks, docBlock, List.append_assoc]
        rw [hctx, trimRight_append_ws _ _ (by decide)]
        rw [htext, show docHeader i d ++ (t ++ [c]) = (docHeader i d ++ t) ++ [c]
          from by simp [List.append_assoc]]
        rw [trimRight_concat_nonspace _ _ hc]
        exact ⟨docHeader i d, [], by simp [List.append_assoc]⟩
    | cons d1 ds' =>
      have hhead : ∃ r, contextBlocks (i + 1) (d1 :: ds') = 'S' :: r := ⟨_, rfl⟩
      have hsplit : trimRight (contextBlocks i (d0 :: d1 :: ds')) =
          docBlock i d0 ++ trimRight (contextBlocks (i + 1) (d1 :: ds')) := by
        rw [show contextBlocks i (d0 :: d1 :: ds') =
          docBlock i d0 ++ contextBlocks (i + 1) (d1 :: ds') from rfl]
        apply trimRight_append_keep
        rcases hhead with ⟨r, hr⟩
        exact ⟨'S', by rw [hr]; exact List.mem_cons_self _ _, by decide⟩
      rw [hsplit]
      rcases List.mem_cons.mp hd with rfl | hmem
      · exact seg_left _ ⟨docHeader i d, '\n' :: '\n' :: [],
          by simp [docBlock, List.append_assoc]⟩
      · have hOK' : ((d1 :: ds').getLast?.all fun x => lastCharNotSpace x.text) =
            true := by
          rw [List.getLast?_cons_cons] at hOK
          exact hOK
        exact seg_right _ (ih (i + 1) hOK' d hmem)

/-- Claim C4 (amended): `GenerateResponse` builds exactly two messages,
the first with role `system` and the second with role `user`; the user
message contains the literal query string, and — provided the last
document's text does not end in whitespace, since the code trims the
assembled context and may otherwise drop that trailing whitespace — it
contains the text of every input document verbatim. -/
theorem generateResponse_message_shape (query : List Char)
    (docs : List Document) :
    (buildMessages query docs).length = 2 ∧
    buildMessages query docs = [systemMessage, userMessage query docs] ∧
    systemMessage.role = "system".toList ∧
    (userMessage query docs).role = "user".toList ∧
    query <:+: (userMessage query docs).content ∧
    ((docs.getLast?.all fun d => lastCharNotSpace d.text) = true →
      ∀ d ∈ docs, d.text <:+: (userMessage query docs).content) := by
  refine ⟨rfl, rfl, rfl, rfl, ?_, ?_⟩
  · exact ⟨promptHeader ++ buildContext docs ++ "\n\nQuestion: ".toList,
      "\n\nAnswer:".toList, by simp [userMessage, buildPrompt, List.append_assoc]⟩
  · intro hOK d hd
    have h1 : d.text <:+: buildContext docs := by
      unfold buildContext trimSpace
      cases docs with
      | nil => cases hd
      | cons d0 ds =>
        have hhead : ∃ r, contextBlocks 0 (d0 :: ds) = 'S' :: r := ⟨_, rfl⟩
        rcases hhead with ⟨r, hr⟩
        rw [hr, trimLeft_cons_nonspace _ _ (by decide), ← hr]
        exact ctx_contains 0 (d0 :: ds) hOK d hd
    rcases h1 with ⟨s, t, hst⟩
    refine ⟨promptHeader ++ s,
      t ++ "\n\nQuestion: ".toList ++ query ++ "\n\nAnswer:".toList, ?_⟩
    show promptHeader ++ s ++ d.text ++
        (t ++ "\n\nQuestion: ".toList ++ query ++ "\n\nAnswer:".toList) =
      (userMessage query docs).content
    rw [show (userMessage query docs).content = buildPrompt query docs from rfl]
    unfold buildPrompt
    rw [← hst]
    simp [List.append_assoc]

set_option maxRecDepth 10000 in
/-- Witness for the amended claim C4: the document text `"cats"` (no
trailing whitespace) is contained verbatim in the user message. -/
theorem generateResponse_message_shape_witness :
    "cats".toList <:+:
      (userMessage ("q".toList) [⟨"cats".toList, "s".toList, 1⟩]).content :=
  (generateResponse_message_shape ("q".toList)
      [⟨"cats".toList, "s".toList, 1⟩]).2.2.2.2.2 (by decide)
    ⟨"cats".toList, "s".toList, 1⟩ (List.mem_singleton.mpr rfl)

set_option maxRecDepth 1000000 in
/-- Claim C4 (counterexample): for the single document whose text is
`"cats "` — with a trailing space — the user message does not contain
the document text verbatim: `TrimSpace` removed the trailing space of
the assembled context block. -/
theorem generateResponse_verbatim_cx :
    ¬ ("cats ".toList <:+:
        (userMessage ("q".toList) [⟨"cats ".toList, "s".toList, 1⟩]).content) := by
  have h1 : round ((1 : ℚ) * 100 * 10) = 1000 := by norm_num [round_eq]
  have hf : fmtPct ((1 : ℚ) * 100) = "100.0".toList := by
    unfold fmtPct
    rw [h1]
    rfl
  intro h
  simp only [userMessage, buildPrompt, buildContext, contextBlocks, docBlock,
    docHeader] at h
  rw [hf] at h
  revert h
  decide

set_option maxRecDepth 1000000 in
/-- Claim C9: with an empty document list the user message is still a
non-empty, well-formed prompt containing the exact fallback-instruction
sentence and the literal query string. -/
theorem emptyDocs_prompt (query : List Char) :
    (userMessage query []).content ≠ [] ∧
    fallbackSentence <:+: (userMessage query []).content ∧
    query <:+: (userMessage query []).content := by
  refine ⟨?_, ?_, ?_⟩
  · show buildPrompt query [] ≠ []
    have hY : ∃ r, buildPrompt query [] = 'Y' :: r := ⟨_, rfl⟩
    rcases hY with ⟨r, hr⟩
    rw [hr]
    exact List.cons_ne_nil _ _
  · have hfb : fallbackSentence <:+: promptHeader := by decide
    show fallbackSentence <:+: buildPrompt query []
    unfold buildPrompt
    exact seg_left _ (seg_left _ (seg_left _ (seg_left _ hfb)))
  · show query <:+: buildPrompt query []
    unfold buildPrompt
    exact ⟨promptHeader ++ buildContext [] ++ "\n\nQuestion: ".toList,
      "\n\nAnswer:".toList, by simp [List.append_assoc]⟩
